import Mathlib

/-!
Verification of the lock-free SPSC ring buffer from
`src/include/lockfree/ring_buffer.hpp` (namespace `lockfree`, class
`RingBuffer<T, Capacity>`).

The C++ class holds two `std::size_t` indices (`head_`, `tail_`) and a
fixed `std::array<T, Capacity>` payload.  We embed a single-threaded
execution of the class shallowly: the state is a structure with the two
indices as `Nat` and the payload as a `List T`; `std::size_t` arithmetic
is `Nat` arithmetic taken modulo `2 ^ 64` where the C++ computation can
wrap, and the bitmask `& kIndexMask` is `Nat` bitwise-and, exactly as in
the source.  The atomic loads/stores collapse to plain reads/writes of
the structure fields, which is the sequential semantics the functional
claims quantify over.
-/

namespace Lockfree

/-- `std::size_t` arithmetic wraps modulo `2 ^ 64`. -/
def wrap (x : Nat) : Nat := x % 2 ^ 64

/-- `kIndexMask = Capacity - 1` (line 89 of the header). -/
def kIndexMask (N : Nat) : Nat := N - 1

/-- State of `lockfree::RingBuffer<T, N>`: consumer index `head_`,
producer index `tail_`, and the `std::array<T, N>` payload `buffer_`. -/
structure RingBuffer (T : Type) (N : Nat) where
  head : Nat
  tail : Nat
  buffer : List T
  deriving DecidableEq, Repr

/-- The `static_assert` on `Capacity` (lines 85-86): a power of two and
greater than 1; as a `std::size_t` template argument it is below `2 ^ 64`. -/
def validCapacity (N : Nat) : Prop := (∃ k, N = 2 ^ k) ∧ 1 < N ∧ N < 2 ^ 64

namespace RingBuffer

variable {T : Type} {N : Nat}

/-- `try_push(const T& item)` (lines 138-153, copy overload).  Returns
the C++ return value paired with the state after the call. -/
def try_push (b : RingBuffer T N) (item : T) : Bool × RingBuffer T N :=
  let current_tail := b.tail
  let next_tail := wrap (current_tail + 1) &&& kIndexMask N
  if next_tail = b.head then
    (false, b)
  else
    (true, { b with buffer := b.buffer.set current_tail item, tail := next_tail })

/-- `try_push(T&& item)` (lines 166-181, move overload).  In the value
semantics of the embedding, moving the item into the slot stores the same
value the copy overload stores. -/
def try_pushMove (b : RingBuffer T N) (item : T) : Bool × RingBuffer T N :=
  let current_tail := b.tail
  let next_tail := wrap (current_tail + 1) &&& kIndexMask N
  if next_tail = b.head then
    (false, b)
  else
    (true, { b with buffer := b.buffer.set current_tail item, tail := next_tail })

/-- `try_pop()` (lines 194-208).  Returns the `std::optional<T>` result
paired with the state after the call.  Moving the value out of the slot
leaves the slot holding an unspecified moved-from value; the embedding
keeps the old value there, and no later read of the slot precedes the
producer overwriting it. -/
def try_pop [Inhabited T] (b : RingBuffer T N) : Option T × RingBuffer T N :=
  let current_head := b.head
  if current_head = b.tail then
    (none, b)
  else
    let item := b.buffer.getD current_head default
    (some item, { b with head := wrap (current_head + 1) &&& kIndexMask N })

/-- `empty()` (lines 218-221). -/
def empty (b : RingBuffer T N) : Bool := b.head == b.tail

/-- `full()` (lines 231-234). -/
def full (b : RingBuffer T N) : Bool :=
  (wrap (b.tail + 1) &&& kIndexMask N) == b.head

/-- `size()` (lines 244-248): `(tail_ - head_) & kIndexMask` with the
subtraction performed in `std::size_t`, i.e. modulo `2 ^ 64`
(`2 ^ 64 + tail - head` agrees with the unsigned difference whenever
`head ≤ 2 ^ 64`, which holds for every stored index). -/
def size (b : RingBuffer T N) : Nat :=
  wrap (2 ^ 64 + b.tail - b.head) &&& kIndexMask N

/-- `capacity()` (lines 258-260). -/
def capacity (N : Nat) : Nat := N - 1

/-- `buffer_size()` (lines 269-271). -/
def buffer_size (N : Nat) : Nat := N

/-- The freshly constructed buffer: `head_ = tail_ = 0`, `buffer_`
default-constructed (lines 92-96, 110). -/
def init (T : Type) [Inhabited T] (N : Nat) : RingBuffer T N :=
  ⟨0, 0, List.replicate N default⟩

/-- One client call: a `try_push` of a value or a `try_pop`. -/
inductive Op (T : Type) where
  | push : T → Op T
  | pop : Op T
  deriving DecidableEq, Repr

/-- The state transition of a single call (return value discarded). -/
def step [Inhabited T] (b : RingBuffer T N) : Op T → RingBuffer T N
  | .push v => (b.try_push v).2
  | .pop => b.try_pop.2

/-- Run a sequence of calls from a state. -/
def run [Inhabited T] (b : RingBuffer T N) : List (Op T) → RingBuffer T N
  | [] => b
  | op :: ops => run (b.step op) ops

/-- The values accepted by successful `try_push` calls of a run, in call
order. -/
def pushedList [Inhabited T] (b : RingBuffer T N) : List (Op T) → List T
  | [] => []
  | .push v :: ops =>
      (if (b.try_push v).1 then [v] else []) ++ pushedList (b.step (.push v)) ops
  | .pop :: ops => pushedList (b.step .pop) ops

/-- The values returned by successful `try_pop` calls of a run, in call
order. -/
def poppedList [Inhabited T] (b : RingBuffer T N) : List (Op T) → List T
  | [] => []
  | .push v :: ops => poppedList (b.step (.push v)) ops
  | .pop :: ops => b.try_pop.1.toList ++ poppedList (b.step .pop) ops

/-- Abstraction function: the live contents of the buffer, oldest first —
the slots in `[head, tail)` taken modulo `N`. -/
def live [Inhabited T] (b : RingBuffer T N) : List T :=
  (List.range b.size).map (fun i => b.buffer.getD ((b.head + i) % N) default)

/-- Structural invariant maintained by every operation: both indices are
in range and the payload array has its declared length. -/
def Inv (b : RingBuffer T N) : Prop :=
  b.head < N ∧ b.tail < N ∧ b.buffer.length = N

/-- A state reachable from the freshly constructed buffer. -/
def Reachable [Inhabited T] (b : RingBuffer T N) : Prop :=
  ∃ ops : List (Op T), b = run (init T N) ops

/-- Outcome of invoking the element type's assignment `slot = item`
(line 148 / 176): either the slot now holds a new value, or the
assignment raised error `e` with the target slot left holding `leftover`
— C++ places no constraint on what a throwing `operator=` leaves in its
target. -/
inductive AssignResult (T : Type) (E : Type) where
  | ok : T → AssignResult T E
  | thrown : (leftover : T) → (e : E) → AssignResult T E

/-- `try_push` (lines 138-153) with the element assignment of line 148
kept abstract so a throwing `T::operator=` can be modelled.  When the
assignment returns `thrown leftover e`, the exception propagates to the
caller (`error`), the release store of line 151 is never executed — so
`head_` and `tail_` are as before the call — and the target slot holds
`leftover`.  With an always-succeeding assignment this coincides with
`try_push`. -/
def try_push_assign {E : Type} [Inhabited T] (b : RingBuffer T N)
    (assign : T → T → AssignResult T E) (item : T) :
    Except (E × RingBuffer T N) (Bool × RingBuffer T N) :=
  let current_tail := b.tail
  let next_tail := wrap (current_tail + 1) &&& kIndexMask N
  if next_tail = b.head then
    .ok (false, b)
  else
    match assign (b.buffer.getD current_tail default) item with
    | .ok v =>
        .ok (true, { b with buffer := b.buffer.set current_tail v, tail := next_tail })
    | .thrown leftover e =>
        .error (e, { b with buffer := b.buffer.set current_tail leftover })

/-- An element assignment that always throws, leaving `99` in the target
slot: models a `T` whose `operator=` fails mid-relocation. -/
def throwingAssign : Nat → Nat → AssignResult Nat Unit :=
  fun _ _ => .thrown 99 ()

/-- 10 × N push/pop cycles for N = 8, pushing a monotone counter. -/
def cycleOps : Nat → List (Op Nat)
  | 0 => []
  | n + 1 => cycleOps n ++ [Op.push n, Op.pop]

end RingBuffer

/- ### Bridge lemmas: the size_t/bitmask arithmetic in terms of `% N` -/

theorem validCapacity_pow {N : Nat} (h : validCapacity N) :
    ∃ k, k ≤ 64 ∧ N = 2 ^ k := by
  obtain ⟨⟨k, rfl⟩, _, hlt⟩ := h
  exact ⟨k, le_of_lt ((Nat.pow_lt_pow_iff_right (by omega)).1 hlt), rfl⟩

theorem validCapacity_dvd {N : Nat} (h : validCapacity N) : N ∣ 2 ^ 64 := by
  obtain ⟨k, hk, rfl⟩ := validCapacity_pow h
  exact pow_dvd_pow 2 hk

theorem mask_eq_mod {N : Nat} (h : validCapacity N) (x : Nat) :
    x &&& kIndexMask N = x % N := by
  obtain ⟨⟨k, rfl⟩, _, _⟩ := h
  simp [kIndexMask, Nat.and_pow_two_sub_one_eq_mod x k]

theorem wrap_mask_eq_mod {N : Nat} (h : validCapacity N) (x : Nat) :
    wrap x &&& kIndexMask N = x % N := by
  rw [mask_eq_mod h, wrap, Nat.mod_mod_of_dvd x (validCapacity_dvd h)]

/-- Reduce `a % N` to an explicit case split when `a < 2 * N`. -/
theorem modCase {N : Nat} (hN : 0 < N) {a : Nat} (h : a < 2 * N) :
    a % N = if a < N then a else a - N := by
  split
  · exact Nat.mod_eq_of_lt (by assumption)
  · rw [Nat.mod_eq_sub_mod (by omega)]
    exact Nat.mod_eq_of_lt (by omega)

namespace RingBuffer

variable {T : Type} {N : Nat}

/- ### The operations rewritten through the bridge lemmas -/

theorem try_push_eq (hc : validCapacity N) (b : RingBuffer T N) (v : T) :
    b.try_push v =
      if (b.tail + 1) % N = b.head then (false, b)
      else (true, ⟨b.head, (b.tail + 1) % N, b.buffer.set b.tail v⟩) := by
  simp only [try_push, wrap_mask_eq_mod hc]

theorem try_pushMove_eq (hc : validCapacity N) (b : RingBuffer T N) (v : T) :
    b.try_pushMove v =
      if (b.tail + 1) % N = b.head then (false, b)
      else (true, ⟨b.head, (b.tail + 1) % N, b.buffer.set b.tail v⟩) := by
  simp only [try_pushMove, wrap_mask_eq_mod hc]

theorem try_pop_eq [Inhabited T] (hc : validCapacity N) (b : RingBuffer T N) :
    b.try_pop =
      if b.head = b.tail then (none, b)
      else (some (b.buffer.getD b.head default),
            ⟨(b.head + 1) % N, b.tail, b.buffer⟩) := by
  simp only [try_pop, wrap_mask_eq_mod hc]

theorem full_iff (hc : validCapacity N) (b : RingBuffer T N) :
    b.full = true ↔ (b.tail + 1) % N = b.head := by
  simp [full, wrap_mask_eq_mod hc]

theorem empty_iff (b : RingBuffer T N) : b.empty = true ↔ b.head = b.tail := by
  simp [empty]

theorem size_eq (hc : validCapacity N) (b : RingBuffer T N) (hh : b.head ≤ N) :
    b.size = (b.tail + N - b.head) % N := by
  rw [size, wrap_mask_eq_mod hc]
  obtain ⟨c, hc2⟩ := validCapacity_dvd hc
  have hc1 : 1 ≤ c := by
    rcases Nat.eq_zero_or_pos c with h0 | h1
    · exfalso; rw [h0, Nat.mul_zero] at hc2; exact absurd hc2 (by positivity)
    · exact h1
  have hNc : N * (c - 1) + N = N * c := by
    have := Nat.mul_le_mul_left N hc1
    rw [Nat.mul_sub, Nat.mul_one]
    omega
  have hsplit : 2 ^ 64 + b.tail - b.head = N * (c - 1) + (b.tail + N - b.head) := by
    rw [hc2, ← hNc]
    omega
  rw [hsplit, Nat.mul_add_mod]

/- ### Index arithmetic of the ring -/

theorem size_lt (hc : validCapacity N) (b : RingBuffer T N) : b.size < N := by
  have hN : 0 < N := by have := hc.2.1; omega
  rw [size]
  calc wrap (2 ^ 64 + b.tail - b.head) &&& kIndexMask N
      = wrap (2 ^ 64 + b.tail - b.head) % N := mask_eq_mod hc _
    _ < N := Nat.mod_lt _ hN

theorem index_ne_tail {N h t i : Nat} (hN : 0 < N) (hh : h < N) (ht : t < N)
    (hi : i < (t + N - h) % N) : (h + i) % N ≠ t := by
  have hs : (t + N - h) % N < N := Nat.mod_lt _ hN
  have h2 : (t + N - h) % N = if t + N - h < N then t + N - h else t + N - h - N :=
    modCase hN (by omega)
  have h3 : (h + i) % N = if h + i < N then h + i else h + i - N :=
    modCase hN (by omega)
  rw [h3]; rw [h2] at hi
  split_ifs at * <;> omega

theorem index_size_eq_tail {N h t : Nat} (hN : 0 < N) (hh : h < N) (ht : t < N) :
    (h + (t + N - h) % N) % N = t := by
  have hs : (t + N - h) % N < N := Nat.mod_lt _ hN
  have h2 : (t + N - h) % N = if t + N - h < N then t + N - h else t + N - h - N :=
    modCase hN (by omega)
  have h3 : (h + (t + N - h) % N) % N =
      if h + (t + N - h) % N < N then h + (t + N - h) % N
      else h + (t + N - h) % N - N := modCase hN (by omega)
  rw [h3, h2]
  rw [h2] at hs
  split_ifs <;> omega

theorem size_zero_iff {N h t : Nat} (hN : 0 < N) (hh : h < N) (ht : t < N) :
    (t + N - h) % N = 0 ↔ h = t := by
  rw [modCase hN (a := t + N - h) (by omega)]
  split_ifs <;> omega

theorem size_full_iff {N h t : Nat} (hN : 1 < N) (hh : h < N) (ht : t < N) :
    (t + N - h) % N = N - 1 ↔ (t + 1) % N = h := by
  rw [modCase (by omega) (a := t + N - h) (by omega),
      modCase (by omega) (a := t + 1) (by omega)]
  split_ifs <;> omega

theorem size_push {N h t : Nat} (hN : 1 < N) (hh : h < N) (ht : t < N)
    (hnf : (t + 1) % N ≠ h) :
    ((t + 1) % N + N - h) % N = (t + N - h) % N + 1 := by
  have h1 : (t + 1) % N = if t + 1 < N then t + 1 else t + 1 - N :=
    modCase (by omega) (by omega)
  rw [h1] at hnf ⊢
  have hu : (if t + 1 < N then t + 1 else t + 1 - N) < N := by split_ifs <;> omega
  rw [modCase (by omega) (a := (if t + 1 < N then t + 1 else t + 1 - N) + N - h) (by omega),
      modCase (by omega) (a := t + N - h) (by omega)]
  split_ifs at * <;> omega

theorem size_pop {N h t : Nat} (hN : 1 < N) (hh : h < N) (ht : t < N)
    (hne : h ≠ t) :
    (t + N - (h + 1) % N) % N + 1 = (t + N - h) % N := by
  have h1 : (h + 1) % N = if h + 1 < N then h + 1 else h + 1 - N :=
    modCase (by omega) (by omega)
  rw [h1]
  have hu : (if h + 1 < N then h + 1 else h + 1 - N) < N := by split_ifs <;> omega
  rw [modCase (by omega) (a := t + N - (if h + 1 < N then h + 1 else h + 1 - N)) (by omega),
      modCase (by omega) (a := t + N - h) (by omega)]
  split_ifs at * <;> omega

/- ### Invariant preservation and reachability -/

theorem inv_init [Inhabited T] (hc : validCapacity N) : Inv (init T N) := by
  have hN : 0 < N := by have := hc.2.1; omega
  exact ⟨hN, hN, by simp [init]⟩

theorem inv_push (hc : validCapacity N) {b : RingBuffer T N} (hb : Inv b) (v : T) :
    Inv (b.try_push v).2 := by
  have hN : 0 < N := by have := hc.2.1; omega
  rw [try_push_eq hc]
  split
  · exact hb
  · exact ⟨hb.1, Nat.mod_lt _ hN, by simp [hb.2.2]⟩

theorem inv_pushMove (hc : validCapacity N) {b : RingBuffer T N} (hb : Inv b) (v : T) :
    Inv (b.try_pushMove v).2 := by
  have hN : 0 < N := by have := hc.2.1; omega
  rw [try_pushMove_eq hc]
  split
  · exact hb
  · exact ⟨hb.1, Nat.mod_lt _ hN, by simp [hb.2.2]⟩

theorem inv_pop [Inhabited T] (hc : validCapacity N) {b : RingBuffer T N} (hb : Inv b) :
    Inv b.try_pop.2 := by
  have hN : 0 < N := by have := hc.2.1; omega
  rw [try_pop_eq hc]
  split
  · exact hb
  · exact ⟨Nat.mod_lt _ hN, hb.2.1, hb.2.2⟩

theorem inv_step [Inhabited T] (hc : validCapacity N) {b : RingBuffer T N}
    (hb : Inv b) (op : Op T) : Inv (b.step op) := by
  cases op with
  | push v => exact inv_push hc hb v
  | pop => exact inv_pop hc hb

theorem inv_run [Inhabited T] (hc : validCapacity N) (ops : List (Op T)) :
    ∀ {b : RingBuffer T N}, Inv b → Inv (run b ops) := by
  induction ops with
  | nil => intro b hb; exact hb
  | cons op ops ih => intro b hb; exact ih (inv_step hc hb op)

theorem reachable_inv [Inhabited T] (hc : validCapacity N) {b : RingBuffer T N}
    (hr : Reachable b) : Inv b := by
  obtain ⟨ops, rfl⟩ := hr
  exact inv_run hc ops (inv_init hc)

/- ### The abstraction function under push and pop -/

theorem live_length [Inhabited T] (b : RingBuffer T N) : b.live.length = b.size := by
  simp [live]

theorem live_push [Inhabited T] (hc : validCapacity N) {b : RingBuffer T N}
    (hb : Inv b) (hnf : b.full = false) (v : T) :
    live (⟨b.head, (b.tail + 1) % N, b.buffer.set b.tail v⟩ : RingBuffer T N) =
      b.live ++ [v] := by
  obtain ⟨hh, ht, hlen⟩ := hb
  have hN : 1 < N := hc.2.1
  have hnf2 : (b.tail + 1) % N ≠ b.head := by
    intro h; rw [← full_iff hc b] at h; simp [h] at hnf
  set b2 : RingBuffer T N := ⟨b.head, (b.tail + 1) % N, b.buffer.set b.tail v⟩ with hb2
  have hsz : b.size = (b.tail + N - b.head) % N := size_eq hc b (by omega)
  have hsz2 : b2.size = b.size + 1 := by
    rw [size_eq hc b2 (by simpa [hb2] using hh.le), hb2, hsz]
    exact size_push hN hh ht hnf2
  apply List.ext_getElem
  · simp [live_length, hsz2]
  · intro i h1 h2
    simp only [live, List.getElem_map, List.getElem_range]
    simp only [live_length, live] at h1 h2
    rw [hsz2] at h1
    rcases Nat.lt_or_ge i b.size with hi | hi
    · have hne : (b.head + i) % N ≠ b.tail := by
        apply index_ne_tail (by omega) hh ht
        rw [← hsz]; exact hi
      have : b2.buffer.getD ((b2.head + i) % N) default =
          b.buffer.getD ((b.head + i) % N) default := by
        simp only [hb2]
        rw [List.getD_eq_getElem?_getD, List.getD_eq_getElem?_getD,
            List.getElem?_set_ne (Ne.symm hne)]
      rw [this, List.getElem_append_left (by simpa [live] using hi)]
      rw [List.getElem_map, List.getElem_range]
    · have hieq : i = b.size := by
        simp only [List.length_append, List.length_map, List.length_range,
          List.length_cons, List.length_nil] at h2
        omega
      have hidx : (b2.head + i) % N = b.tail := by
        simp only [hb2, hieq, hsz]
        exact index_size_eq_tail (by omega) hh ht
      have : b2.buffer.getD ((b2.head + i) % N) default = v := by
        rw [hidx]
        simp only [hb2]
        rw [List.getD_eq_getElem?_getD, List.getElem?_set_self (by omega)]
        rfl
      rw [this, List.getElem_append_right (by simpa [live] using hi)]
      simp [live, hieq]

theorem live_pop [Inhabited T] (hc : validCapacity N) {b : RingBuffer T N}
    (hb : Inv b) (hne : b.head ≠ b.tail) :
    b.live = b.buffer.getD b.head default ::
      live (⟨(b.head + 1) % N, b.tail, b.buffer⟩ : RingBuffer T N) := by
  obtain ⟨hh, ht, hlen⟩ := hb
  have hN : 1 < N := hc.2.1
  set b2 : RingBuffer T N := ⟨(b.head + 1) % N, b.tail, b.buffer⟩ with hb2
  have hsz : b.size = (b.tail + N - b.head) % N := size_eq hc b (by omega)
  have hh2 : b2.head < N := Nat.mod_lt _ (by omega)
  have hsz2 : b2.size + 1 = b.size := by
    rw [size_eq hc b2 (by omega), hb2, hsz]
    exact size_pop hN hh ht hne
  apply List.ext_getElem
  · simp [live_length, List.length_cons, ← hsz2]
  · intro i h1 h2
    simp only [live_length, live] at h1 h2 ⊢
    cases i with
    | zero =>
      simp only [List.getElem_map, List.getElem_range, List.getElem_cons_zero]
      rw [Nat.add_zero, Nat.mod_eq_of_lt hh]
    | succ j =>
      simp only [List.getElem_map, List.getElem_range, List.getElem_cons_succ,
        List.getElem_map, List.getElem_range]
      have : (b.head + (j + 1)) % N = (b2.head + j) % N := by
        simp only [hb2]
        conv_rhs => rw [Nat.add_comm b.head 1]
        rw [Nat.mod_add_mod]
        ring_nf
      rw [this]

/- ### The four outcomes of a call -/

theorem try_push_fail (hc : validCapacity N) (b : RingBuffer T N) (v : T)
    (hf : b.full = true) : b.try_push v = (false, b) := by
  rw [try_push_eq hc, if_pos ((full_iff hc b).1 hf)]

theorem try_push_succ (hc : validCapacity N) (b : RingBuffer T N) (v : T)
    (hf : b.full = false) :
    b.try_push v = (true, ⟨b.head, (b.tail + 1) % N, b.buffer.set b.tail v⟩) := by
  rw [try_push_eq hc, if_neg]
  intro h
  rw [← full_iff hc b] at h
  rw [h] at hf
  exact absurd hf (by decide)

theorem try_pop_none [Inhabited T] (hc : validCapacity N) (b : RingBuffer T N)
    (he : b.empty = true) : b.try_pop = (none, b) := by
  rw [try_pop_eq hc, if_pos ((empty_iff b).1 he)]

theorem try_pop_some [Inhabited T] (hc : validCapacity N) (b : RingBuffer T N)
    (he : b.empty = false) :
    b.try_pop = (some (b.buffer.getD b.head default),
      ⟨(b.head + 1) % N, b.tail, b.buffer⟩) := by
  rw [try_pop_eq hc, if_neg]
  intro h
  rw [← empty_iff b] at h
  rw [h] at he
  exact absurd he (by decide)

theorem live_init (T : Type) [Inhabited T] (N : Nat) : (init T N).live = [] := by
  simp [live, size, init, wrap, Nat.mod_self]

/- ### The queue refinement: every run relates pushes, pops and contents -/

theorem run_fifo [Inhabited T] (hc : validCapacity N) (ops : List (Op T)) :
    ∀ {b : RingBuffer T N}, Inv b →
      poppedList b ops ++ live (run b ops) = b.live ++ pushedList b ops := by
  induction ops with
  | nil =>
    intro b _
    simp [poppedList, pushedList, run]
  | cons op ops ih =>
    intro b hb
    cases op with
    | push v =>
      by_cases hf : b.full = true
      · have hp : b.try_push v = (false, b) := try_push_fail hc b v hf
        have h1 : b.step (.push v) = b := by simp [step, hp]
        simp only [poppedList, pushedList, run, h1, hp]
        simpa using ih hb
      · have hf2 : b.full = false := by revert hf; cases b.full <;> simp
        have hp : b.try_push v =
            (true, ⟨b.head, (b.tail + 1) % N, b.buffer.set b.tail v⟩) :=
          try_push_succ hc b v hf2
        have h1 : b.step (.push v) =
            ⟨b.head, (b.tail + 1) % N, b.buffer.set b.tail v⟩ := by
          simp [step, hp]
        have hb2 : Inv (⟨b.head, (b.tail + 1) % N,
            b.buffer.set b.tail v⟩ : RingBuffer T N) := by
          rw [← h1]
          exact inv_step hc hb _
        simp only [poppedList, pushedList, run, h1, hp]
        rw [ih hb2, live_push hc hb hf2 v]
        simp
    | pop =>
      by_cases he : b.empty = true
      · have hp : b.try_pop = (none, b) := try_pop_none hc b he
        have h1 : b.step .pop = b := by simp [step, hp]
        simp only [poppedList, pushedList, run, h1, hp]
        simpa using ih hb
      · have he2 : b.empty = false := by revert he; cases b.empty <;> simp
        have hne : b.head ≠ b.tail := by
          intro h
          rw [← empty_iff b] at h
          rw [h] at he2
          exact absurd he2 (by decide)
        have hp : b.try_pop = (some (b.buffer.getD b.head default),
            ⟨(b.head + 1) % N, b.tail, b.buffer⟩) := try_pop_some hc b he2
        have h1 : b.step .pop = ⟨(b.head + 1) % N, b.tail, b.buffer⟩ := by
          simp [step, hp]
        have hb2 : Inv (⟨(b.head + 1) % N, b.tail, b.buffer⟩ : RingBuffer T N) := by
          rw [← h1]
          exact inv_step hc hb _
        simp only [poppedList, pushedList, run, h1, hp]
        rw [List.append_assoc, ih hb2, live_pop hc hb hne]
        simp

end RingBuffer

/-- `validCapacity` holds for the test capacity 8. -/
theorem validCapacity8 : validCapacity 8 :=
  ⟨⟨3, rfl⟩, by norm_num, by norm_num⟩

namespace RingBuffer

variable {T : Type} {N : Nat}

/-- C1: over any sequence of `try_push`/`try_pop` calls from the initial
state — in particular sequences that wrap the indices arbitrarily often —
the values accepted by successful pushes are exactly the values returned
by successful pops followed by the still-live buffer contents, in the
same order: FIFO with no value lost, duplicated or reordered. -/
theorem pushed_eq_popped_append_live (T : Type) [Inhabited T] (N : Nat)
    (hc : validCapacity N) (ops : List (Op T)) :
    pushedList (init T N) ops =
      poppedList (init T N) ops ++ live (run (init T N) ops) := by
  have h := run_fifo hc ops (inv_init hc)
  rw [live_init] at h
  simpa using h.symm

/-- Witness for C1 at N = 8 with 80 push/pop cycles (≥ 10 × N). -/
theorem pushed_eq_popped_append_live_witness :
    validCapacity 8 ∧
    pushedList (init Nat 8) (cycleOps 80) =
      poppedList (init Nat 8) (cycleOps 80) ++
        live (run (init Nat 8) (cycleOps 80)) :=
  ⟨validCapacity8, pushed_eq_popped_append_live Nat 8 validCapacity8 (cycleOps 80)⟩

/-- C2: in every state reachable from the initial state, head and tail
are in `[0, N)`, `empty()` is true iff `head = tail`, `full()` is true
iff `(tail + 1) % N = head`, and `size()` equals `(tail − head) mod N`,
always in `[0, N − 1]`. -/
theorem reachable_state_invariants (T : Type) [Inhabited T] (N : Nat)
    (hc : validCapacity N) (b : RingBuffer T N) (hr : Reachable b) :
    b.head < N ∧ b.tail < N ∧
    (b.empty = true ↔ b.head = b.tail) ∧
    (b.full = true ↔ (b.tail + 1) % N = b.head) ∧
    b.size = (b.tail + N - b.head) % N ∧ b.size ≤ N - 1 := by
  have hb := reachable_inv hc hr
  have hsl := size_lt hc b
  have hN := hc.2.1
  exact ⟨hb.1, hb.2.1, empty_iff b, full_iff hc b,
    size_eq hc b hb.1.le, by omega⟩

/-- Witness for C2 at N = 8 on the state after one successful push. -/
theorem reachable_state_invariants_witness :
    validCapacity 8 ∧
    (run (init Nat 8) [Op.push 5]).head < 8 ∧
    (run (init Nat 8) [Op.push 5]).tail < 8 ∧
    ((run (init Nat 8) [Op.push 5]).empty = true ↔
      (run (init Nat 8) [Op.push 5]).head = (run (init Nat 8) [Op.push 5]).tail) ∧
    ((run (init Nat 8) [Op.push 5]).full = true ↔
      ((run (init Nat 8) [Op.push 5]).tail + 1) % 8 = (run (init Nat 8) [Op.push 5]).head) ∧
    (run (init Nat 8) [Op.push 5]).size =
      ((run (init Nat 8) [Op.push 5]).tail + 8 - (run (init Nat 8) [Op.push 5]).head) % 8 ∧
    (run (init Nat 8) [Op.push 5]).size ≤ 7 :=
  ⟨validCapacity8,
    reachable_state_invariants Nat 8 validCapacity8 _ ⟨[Op.push 5], rfl⟩⟩

/-- C3: in every reachable state, `try_push` returns `false` exactly when
the buffer holds `N − 1` live elements (equivalently when
`(tail + 1) % N = head`), and `try_pop` returns `none` exactly when it
holds `0` live elements (equivalently when `head = tail`); otherwise the
operations succeed. -/
theorem failure_conditions (T : Type) [Inhabited T] (N : Nat)
    (hc : validCapacity N) (b : RingBuffer T N) (hr : Reachable b) (v : T) :
    ((b.try_push v).1 = false ↔ b.size = N - 1) ∧
    ((b.try_push v).1 = false ↔ (b.tail + 1) % N = b.head) ∧
    (b.try_pop.1 = none ↔ b.size = 0) ∧
    (b.try_pop.1 = none ↔ b.head = b.tail) := by
  have hb := reachable_inv hc hr
  have hN : 1 < N := hc.2.1
  have h1 : (b.try_push v).1 = false ↔ (b.tail + 1) % N = b.head := by
    rw [try_push_eq hc]
    split_ifs with h <;> simp [h]
  have h2 : b.try_pop.1 = none ↔ b.head = b.tail := by
    rw [try_pop_eq hc]
    split_ifs with h <;> simp [h]
  have hsz : b.size = (b.tail + N - b.head) % N := size_eq hc b hb.1.le
  refine ⟨?_, h1, ?_, h2⟩
  · rw [h1, hsz]
    exact (size_full_iff hN hb.1 hb.2.1).symm
  · rw [h2, hsz]
    exact (size_zero_iff (by omega) hb.1 hb.2.1).symm

/-- Witness for C3 at N = 8 on the state after one successful push. -/
theorem failure_conditions_witness :
    validCapacity 8 ∧
    (((run (init Nat 8) [Op.push 5]).try_push 7).1 = false ↔
      (run (init Nat 8) [Op.push 5]).size = 7) ∧
    (((run (init Nat 8) [Op.push 5]).try_push 7).1 = false ↔
      ((run (init Nat 8) [Op.push 5]).tail + 1) % 8 = (run (init Nat 8) [Op.push 5]).head) ∧
    ((run (init Nat 8) [Op.push 5]).try_pop.1 = none ↔
      (run (init Nat 8) [Op.push 5]).size = 0) ∧
    ((run (init Nat 8) [Op.push 5]).try_pop.1 = none ↔
      (run (init Nat 8) [Op.push 5]).head = (run (init Nat 8) [Op.push 5]).tail) :=
  ⟨validCapacity8, failure_conditions Nat 8 validCapacity8 _ ⟨[Op.push 5], rfl⟩ 7⟩

/-- C5: after any interleaving from the initial state with `k` successful
pushes and `j` successful pops, `j ≤ k`, `k − j ≤ N − 1`, and `size()`
returns `k − j`. -/
theorem size_eq_pushes_sub_pops (T : Type) [Inhabited T] (N : Nat)
    (hc : validCapacity N) (ops : List (Op T)) :
    (poppedList (init T N) ops).length ≤ (pushedList (init T N) ops).length ∧
    (pushedList (init T N) ops).length - (poppedList (init T N) ops).length ≤ N - 1 ∧
    size (run (init T N) ops) =
      (pushedList (init T N) ops).length - (poppedList (init T N) ops).length := by
  have h := run_fifo hc ops (inv_init hc)
  rw [live_init] at h
  have hlen := congrArg List.length h
  simp only [List.length_append, live_length, List.nil_append] at hlen
  have hsl := size_lt hc (run (init T N) ops)
  have hN := hc.2.1
  omega

/-- Witness for C5 at N = 8 over a concrete interleaving. -/
theorem size_eq_pushes_sub_pops_witness :
    validCapacity 8 ∧
    (poppedList (init Nat 8) [Op.push 1, Op.push 2, Op.pop, Op.push 3]).length ≤
      (pushedList (init Nat 8) [Op.push 1, Op.push 2, Op.pop, Op.push 3]).length ∧
    (pushedList (init Nat 8) [Op.push 1, Op.push 2, Op.pop, Op.push 3]).length -
      (poppedList (init Nat 8) [Op.push 1, Op.push 2, Op.pop, Op.push 3]).length ≤ 7 ∧
    size (run (init Nat 8) [Op.push 1, Op.push 2, Op.pop, Op.push 3]) =
      (pushedList (init Nat 8) [Op.push 1, Op.push 2, Op.pop, Op.push 3]).length -
        (poppedList (init Nat 8) [Op.push 1, Op.push 2, Op.pop, Op.push 3]).length :=
  ⟨validCapacity8, size_eq_pushes_sub_pops Nat 8 validCapacity8 _⟩

/-- C7: `capacity()` returns the constant `N − 1` and `buffer_size()` the
constant `N`; both are state-independent (they read no field). -/
theorem capacity_buffer_size_eq (N : Nat) :
    capacity N = N - 1 ∧ buffer_size N = N :=
  ⟨rfl, rfl⟩

/-- C8: both `try_push` overloads leave `head_` unchanged and either
leave `tail_` unchanged or advance it by one modulo `N`; `try_pop` leaves
`tail_` unchanged and either leaves `head_` unchanged or advances it by
one modulo `N`.  No index is ever decremented except by the wraparound
modulus. -/
theorem index_frame_conditions (T : Type) [Inhabited T] (N : Nat)
    (hc : validCapacity N) (b : RingBuffer T N) (v : T) :
    (b.try_push v).2.head = b.head ∧
    ((b.try_push v).2.tail = b.tail ∨ (b.try_push v).2.tail = (b.tail + 1) % N) ∧
    (b.try_pushMove v).2.head = b.head ∧
    ((b.try_pushMove v).2.tail = b.tail ∨
      (b.try_pushMove v).2.tail = (b.tail + 1) % N) ∧
    b.try_pop.2.tail = b.tail ∧
    (b.try_pop.2.head = b.head ∨ b.try_pop.2.head = (b.head + 1) % N) := by
  rw [try_push_eq hc, try_pushMove_eq hc, try_pop_eq hc]
  refine ⟨?_, ?_, ?_, ?_, ?_, ?_⟩ <;> split <;> simp

/-- Witness for C8 at N = 8 on the initial state. -/
theorem index_frame_conditions_witness :
    validCapacity 8 ∧
    ((init Nat 8).try_push 3).2.head = (init Nat 8).head ∧
    (((init Nat 8).try_push 3).2.tail = (init Nat 8).tail ∨
      ((init Nat 8).try_push 3).2.tail = ((init Nat 8).tail + 1) % 8) ∧
    ((init Nat 8).try_pushMove 3).2.head = (init Nat 8).head ∧
    (((init Nat 8).try_pushMove 3).2.tail = (init Nat 8).tail ∨
      ((init Nat 8).try_pushMove 3).2.tail = ((init Nat 8).tail + 1) % 8) ∧
    (init Nat 8).try_pop.2.tail = (init Nat 8).tail ∧
    ((init Nat 8).try_pop.2.head = (init Nat 8).head ∨
      (init Nat 8).try_pop.2.head = ((init Nat 8).head + 1) % 8) :=
  ⟨validCapacity8, index_frame_conditions Nat 8 validCapacity8 (init Nat 8) 3⟩

/-- C10: the copy overload `try_push(const T&)` and the move overload
`try_push(T&&)` are equivalent: for every state and item they return the
same boolean, perform the same tail update, and leave the same value in
the slot; in value semantics the two calls coincide entirely. -/
theorem push_overloads_equiv (T : Type) (N : Nat) (b : RingBuffer T N) (v : T) :
    b.try_pushMove v = b.try_push v := rfl

/-- Sanity: with an assignment that always succeeds by storing the item,
`try_push_assign` coincides with `try_push`. -/
theorem try_push_assign_ok {E : Type} [Inhabited T] (b : RingBuffer T N) (v : T) :
    b.try_push_assign (E := E) (fun _ x => .ok x) v = .ok (b.try_push v) := by
  simp only [try_push_assign, try_push]
  split <;> rfl

/-- C4 counterexample: from the initial state of `RingBuffer<int, 4>`, a
`try_push(5)` whose element assignment throws after writing `99` into the
target slot propagates the error with `head_` and `tail_` exactly as
before the call, but with slot `0` changed from `0` to `99` — the claim
that every slot's contents are exactly as before the call fails. -/
theorem throwing_assign_modifies_slot :
    try_push_assign (init Nat 4) throwingAssign 5 =
      .error ((), ⟨0, 0, [99, 0, 0, 0]⟩) ∧
    (⟨0, 0, [99, 0, 0, 0]⟩ : RingBuffer Nat 4).head = (init Nat 4).head ∧
    (⟨0, 0, [99, 0, 0, 0]⟩ : RingBuffer Nat 4).tail = (init Nat 4).tail ∧
    (⟨0, 0, [99, 0, 0, 0]⟩ : RingBuffer Nat 4).buffer ≠ (init Nat 4).buffer :=
  ⟨rfl, rfl, rfl, by decide⟩

/-- C4 amended: a `try_push` (either overload) that finds the buffer full
and a `try_pop` that finds it empty return with the entire state —
indices and every slot — exactly as before the call, the failing push
not consuming the caller's item; an element relocation that raises
mid-push propagates the error with `head_` and `tail_` exactly as before
the call began (no partial state is published), but the target slot holds
whatever the throwing assignment left in it rather than necessarily its
old contents. -/
theorem failed_ops_preserve_state (T : Type) (E : Type) [Inhabited T] (N : Nat)
    (hc : validCapacity N) (b : RingBuffer T N) (v : T)
    (assign : T → T → AssignResult T E) :
    (b.full = true →
      b.try_push v = (false, b) ∧ b.try_pushMove v = (false, b) ∧
      b.try_push_assign assign v = .ok (false, b)) ∧
    (b.empty = true → b.try_pop = (none, b)) ∧
    (∀ e b2, b.try_push_assign assign v = .error (e, b2) →
      b2.head = b.head ∧ b2.tail = b.tail) := by
  refine ⟨?_, fun he => try_pop_none hc b he, ?_⟩
  · intro hf
    have hcond : (b.tail + 1) % N = b.head := (full_iff hc b).1 hf
    refine ⟨try_push_fail hc b v hf, ?_, ?_⟩
    · rw [try_pushMove_eq hc, if_pos hcond]
    · rw [try_push_assign]
      simp only [wrap_mask_eq_mod hc, if_pos hcond]
  · intro e b2 herr
    rw [try_push_assign] at herr
    split at herr
    · exact absurd herr (by simp)
    · split at herr
      · exact absurd herr (by simp)
      · rename_i leftover e2 heq
        simp only [Except.error.injEq, Prod.mk.injEq] at herr
        obtain ⟨-, rfl⟩ := herr
        exact ⟨rfl, rfl⟩

/-- Witness for the amended C4 at N = 4 on the initial state with the
always-throwing assignment. -/
theorem failed_ops_preserve_state_witness :
    validCapacity 4 ∧
    (((init Nat 4).full = true →
      (init Nat 4).try_push 9 = (false, init Nat 4) ∧
      (init Nat 4).try_pushMove 9 = (false, init Nat 4) ∧
      (init Nat 4).try_push_assign throwingAssign 9 = .ok (false, init Nat 4)) ∧
    ((init Nat 4).empty = true → (init Nat 4).try_pop = (none, init Nat 4)) ∧
    (∀ e b2, (init Nat 4).try_push_assign throwingAssign 9 = .error (e, b2) →
      b2.head = (init Nat 4).head ∧ b2.tail = (init Nat 4).tail)) :=
  ⟨⟨⟨2, rfl⟩, by norm_num, by norm_num⟩,
    failed_ops_preserve_state Nat Unit 4 ⟨⟨2, rfl⟩, by norm_num, by norm_num⟩
      (init Nat 4) 9 throwingAssign⟩

/-- C6 counterexample: the state after pushing `10` into a fresh
`RingBuffer<int, 4>` is not full, yet pushing `20` and then popping
yields `10` — the oldest element — not the value `20` just pushed: the
round-trip property fails on non-full, non-empty states. -/
theorem roundtrip_nonfull_cex :
    full (run (init Nat 4) [Op.push 10]) = false ∧
    ((run (init Nat 4) [Op.push 10]).try_push 20).1 = true ∧
    (((run (init Nat 4) [Op.push 10]).try_push 20).2.try_pop).1 = some 10 ∧
    (((run (init Nat 4) [Op.push 10]).try_push 20).2.try_pop).1 ≠ some 20 := by
  refine ⟨rfl, rfl, rfl, by decide⟩

/-- C6 amended: for every EMPTY buffer state (the round-trip's starting
point) satisfying the structural invariant, and every value `v`:
`try_push(v)` succeeds and the following `try_pop()` succeeds and yields
exactly `v`. -/
theorem roundtrip_on_empty (T : Type) [Inhabited T] (N : Nat)
    (hc : validCapacity N) (b : RingBuffer T N) (hb : Inv b)
    (he : b.empty = true) (v : T) :
    (b.try_push v).1 = true ∧ ((b.try_push v).2.try_pop).1 = some v := by
  have hN : 1 < N := hc.2.1
  obtain ⟨hh, ht, hlen⟩ := hb
  have hht : b.head = b.tail := (empty_iff b).1 he
  have hnf : (b.tail + 1) % N ≠ b.head := by
    rw [hht, modCase (show 0 < N by omega) (show b.tail + 1 < 2 * N by omega)]
    split_ifs <;> omega
  have hp : b.try_push v =
      (true, ⟨b.head, (b.tail + 1) % N, b.buffer.set b.tail v⟩) := by
    rw [try_push_eq hc, if_neg hnf]
  refine ⟨by rw [hp], ?_⟩
  rw [hp]
  rw [try_pop_eq hc]
  rw [if_neg (fun h => hnf h.symm)]
  rw [hht]
  rw [List.getD_eq_getElem?_getD, List.getElem?_set_self (by omega), Option.getD_some]

/-- Witness for the amended C6 at N = 8 on the initial (empty) state. -/
theorem roundtrip_on_empty_witness :
    validCapacity 8 ∧ Inv (init Nat 8) ∧ (init Nat 8).empty = true ∧
    (((init Nat 8).try_push 42).1 = true ∧
      (((init Nat 8).try_push 42).2.try_pop).1 = some 42) :=
  ⟨validCapacity8, ⟨by decide, by decide, by decide⟩, by decide,
    roundtrip_on_empty Nat 8 validCapacity8 (init Nat 8)
      ⟨by decide, by decide, by decide⟩ (by decide) 42⟩

end RingBuffer

end Lockfree
